import Mathlib

/-!
Shallow embedding of `onnxruntime/python/tools/quantization/calibrate.py`.

Modelling conventions:
- Python floats are modelled by `ℚ` (exact arithmetic; the numeric claims under
  study are stated in exact arithmetic in the specification).
- Python dictionaries are modelled by association lists in insertion order;
  `dict(zip(names, values))` is modelled by `names.zip values`, which agrees
  with the Python dictionary whenever the key list has no duplicates (the
  theorems that need this carry a `Nodup` hypothesis, and all concrete
  instances use distinct names).
- Python exceptions (`ValueError`, `IndexError`, `KeyError`) are modelled by
  `Except String` or `Option`: an out-of-range index such as `xs[i]` becomes a
  failing lookup instead of a crash.
- The inference session of onnxruntime is external to the repository; it is
  modelled by a function `run : α → List ℚ` returning the values of the
  session outputs, in declared-output order, for one calibration input.
  `get_intermediate_outputs` additionally returns the number of `session.run`
  invocations it performed, so that "no inference call occurs" is observable.
-/

/-- Protobuf attribute, reduced to its float accessor `.f` (the only accessor
the source reads, at `next_node.attribute[k].f`).  An attribute whose payload
is not a float reads as `0` through `.f`, matching protobuf semantics. -/
structure AttributeProto where
  f : ℚ
deriving DecidableEq, Repr

/-- Graph node (`onnx.NodeProto`): operator type, node name, input tensor
names, output tensor names and attribute list.  The protobuf field
`attribute` is spelled `attr` here because `attribute` is a Lean keyword. -/
structure NodeProto where
  op_type : String
  name : String
  input : List String
  output : List String
  attr : List AttributeProto
deriving DecidableEq, Repr

/-- Declared graph-level output (`onnx.ValueInfoProto`), reduced to the fields
the source sets through `helper.make_tensor_value_info`: tensor name and
element type. -/
structure ValueInfoProto where
  name : String
  elem_type : ℕ
deriving DecidableEq, Repr

/-- `onnx.TensorProto.FLOAT`. -/
def TensorProtoFLOAT : ℕ := 1

/-- Graph (`onnx.GraphProto`): ordered node list and declared output list. -/
structure GraphProto where
  node : List NodeProto
  output : List ValueInfoProto
deriving DecidableEq, Repr

/-- Model (`onnx.ModelProto`), reduced to its graph. -/
structure ModelProto where
  graph : GraphProto
deriving DecidableEq, Repr

/-- Candidate nodes for quantization (calibrate.py line 33). -/
def quantization_candidates : List String := ["Conv", "MatMul"]

/-- One iteration of the augmentation loop (calibrate.py lines 36-51): for an
eligible node, build its ReduceMin and ReduceMax probe nodes and the two
scalar output declarations; `node.output[0]` on an output-less node is the
Python `IndexError`, modelled as `none`.  The probe nodes carry the
`keepdims=0` attribute (an int attribute, reading as `0` through `.f`). -/
def augmentStep (node : NodeProto) : Option (List NodeProto × List ValueInfoProto) :=
  if node.op_type ∈ quantization_candidates then
    match node.output.head? with
    | none => none
    | some input_name =>
      let reduce_min_node : NodeProto :=
        ⟨"ReduceMin", node.name ++ "_ReduceMin", [input_name],
          [input_name ++ "_ReduceMin"], [⟨0⟩]⟩
      let reduce_max_node : NodeProto :=
        ⟨"ReduceMax", node.name ++ "_ReduceMax", [input_name],
          [input_name ++ "_ReduceMax"], [⟨0⟩]⟩
      some ([reduce_min_node, reduce_max_node],
        [⟨input_name ++ "_ReduceMin", TensorProtoFLOAT⟩,
         ⟨input_name ++ "_ReduceMax", TensorProtoFLOAT⟩])
  else some ([], [])

/-- Accumulation of `added_nodes` and `added_outputs` over the node list, in
traversal order (calibrate.py lines 34-51). -/
def addedPieces : List NodeProto → Option (List NodeProto × List ValueInfoProto)
  | [] => some ([], [])
  | node :: rest =>
    match augmentStep node, addedPieces rest with
    | some (ns, os), some (rns, ros) => some (ns ++ rns, os ++ ros)
    | _, _ => none

/-- `augment_graph` (calibrate.py lines 24-54): extends the node list with the
probe nodes and the output list with the probe output declarations.  The
Python function mutates `model.graph` in place and returns the same object;
the value returned here is the value of that object after the call. -/
def augment_graph (model : ModelProto) : Option ModelProto :=
  (addedPieces model.graph.node).map (fun p =>
    ⟨⟨model.graph.node ++ p.1, model.graph.output ++ p.2⟩⟩)

/-- Zero-inclusion clamp of the range minimum, `rmin = min(rmin, 0)`
(calibrate.py line 103). -/
def zeroClampMin (rmin : ℚ) : ℚ := min rmin 0

/-- Zero-inclusion clamp of the range maximum, `rmax = max(rmax, 0)`
(calibrate.py line 104). -/
def zeroClampMax (rmax : ℚ) : ℚ := max rmax 0

/-- Clip-successor range adjustment (calibrate.py lines 109-115):
`next_node.attribute[0].f` and `next_node.attribute[1].f` are the constant
clip bounds; reading them on a Clip node with fewer than two attributes is
the Python `IndexError`, modelled as `none`. -/
def clipAdjust (next_node : NodeProto) (rmin rmax : ℚ) : Option (ℚ × ℚ) :=
  if next_node.op_type = "Clip" then
    match next_node.attr.get? 0, next_node.attr.get? 1 with
    | some a0, some a1 =>
      some (if rmin < a0.f then a0.f else rmin, if rmax > a1.f then a1.f else rmax)
    | _, _ => none
  else some (rmin, rmax)

/-- Relu-successor range adjustment (calibrate.py lines 116-118). -/
def reluAdjust (next_node : NodeProto) (rmin : ℚ) : ℚ :=
  if next_node.op_type = "Relu" then (if rmin < 0 then 0 else rmin) else rmin

/-- Scale computation (calibrate.py line 120):
`(rmax - rmin)/255 if rmin != rmax else 1`. -/
def scaleOf (rmin rmax : ℚ) : ℚ := if rmin ≠ rmax then (rmax - rmin) / 255 else 1

/-- Python `round`: round half to even (banker rounding), on exact rationals. -/
def pyRound (q : ℚ) : ℤ :=
  let f := ⌊q⌋
  let r := q - (f : ℚ)
  if r < 1 / 2 then f
  else if 1 / 2 < r then f + 1
  else if f % 2 = 0 then f else f + 1

/-- `np.uint8` conversion: reduction modulo 256 into `[0, 255]`. -/
def npUint8 (z : ℤ) : ℤ := z % 256

/-- Zero-point computation (calibrate.py lines 121-122):
`np.uint8(round(max(0, min(255, (0 - rmin) / scale))))`. -/
def zeroPointOf (rmin scale : ℚ) : ℤ :=
  npUint8 (pyRound (max 0 (min 255 ((0 - rmin) / scale))))

/-- `calculate_scale_zeropoint` (calibrate.py lines 99-126).  The returned
pair is `(zero_point, scale)`, in the order the Python list is filled.  The
`node` parameter is unused, as in the source. -/
def calculate_scale_zeropoint (node next_node : NodeProto) (rmin rmax : ℚ) :
    Option (ℤ × ℚ) :=
  match clipAdjust next_node (zeroClampMin rmin) (zeroClampMax rmax) with
  | none => none
  | some rr =>
    let rmin2 := reluAdjust next_node rr.1
    some (zeroPointOf rmin2 (scaleOf rmin2 rr.2), scaleOf rmin2 rr.2)

/-- Lookup in the thresholds dictionary `quantization_thresholds[name]`. -/
def lookupThresh (t : List (String × ℚ × ℚ)) (k : String) : Option (ℚ × ℚ) :=
  (t.find? (fun kv => kv.1 == k)).map (fun kv => kv.2)

/-- The enumeration loop of `calculate_quantization_params` (calibrate.py
lines 156-162): `allNodes` is the whole node list (used for the positional
successor access `model.graph.node[index+1]`, which has no bounds check and
is the Python `IndexError` when the index runs past the end). -/
def cqpLoop (allNodes : List NodeProto) (thresholds : List (String × ℚ × ℚ)) :
    List NodeProto → ℕ → Except String (List (String × ℤ × ℚ))
  | [], _ => .ok []
  | node :: rest, index =>
    match node.output.head? with
    | none => .error "IndexError: list index out of range"
    | some node_output_name =>
      match lookupThresh thresholds node_output_name with
      | none => cqpLoop allNodes thresholds rest (index + 1)
      | some node_thresholds =>
        match allNodes.get? (index + 1) with
        | none => .error "IndexError: list index out of range"
        | some next_node =>
          match calculate_scale_zeropoint node next_node
              node_thresholds.1 node_thresholds.2 with
          | none => .error "IndexError: list index out of range"
          | some node_params =>
            match cqpLoop allNodes thresholds rest (index + 1) with
            | .error e => .error e
            | .ok restParams => .ok ((node_output_name, node_params) :: restParams)

/-- `calculate_quantization_params` (calibrate.py lines 128-164). -/
def calculate_quantization_params (model : ModelProto) (nbits : ℕ)
    (quantization_thresholds : Option (List (String × ℚ × ℚ))) :
    Except String (List (String × ℤ × ℚ)) :=
  if nbits ≠ 8 then
    .error "ValueError: Unknown value for nbits. only 8 bit quantization is currently supported"
  else
    match quantization_thresholds with
    | none =>
      .error "ValueError: output quantization threshold is required to calculate quantization thresholds"
    | some thresholds => cqpLoop model.graph.node thresholds model.graph.node 0

/-- `merged_dict.setdefault(k, []).append(v)` (calibrate.py line 83): append
`v` to the list at key `k`, creating the key at the end on first sight. -/
def dictAppend (d : List (String × List ℚ)) (k : String) (v : ℚ) :
    List (String × List ℚ) :=
  if d.any (fun kv => kv.1 == k) then
    d.map (fun kv => if kv.1 == k then (kv.1, kv.2 ++ [v]) else kv)
  else d ++ [(k, [v])]

/-- Merging one sample output dictionary into the accumulator (the inner loop
of calibrate.py lines 81-83). -/
def mergeSample (d : List (String × List ℚ)) (kvs : List (String × ℚ)) :
    List (String × List ℚ) :=
  kvs.foldl (fun d kv => dictAppend d kv.1 kv.2) d

/-- Dictionary read `d[k]`; a missing key is the Python `KeyError`. -/
def dictGet (d : List (String × List ℚ)) (k : String) : Option (List ℚ) :=
  (d.find? (fun kv => kv.1 == k)).map (fun kv => kv.2)

/-- `s.rpartition(sep)[0]` for a one-character separator: the part of the
string before the last occurrence of the separator, empty if absent. -/
def rpartitionBefore (sep : Char) (s : String) : String :=
  match s.toList.reverse.findIdx? (fun c => c == sep) with
  | none => ""
  | some i => String.mk (s.toList.take (s.toList.length - 1 - i))

/-- `node_names` (calibrate.py line 85): every second added output name,
stripped of its probe suffix at the last underscore. -/
def node_names_of : List String → List String
  | [] => []
  | [a] => [rpartitionBefore '_' a]
  | a :: _ :: rest => rpartitionBefore '_' a :: node_names_of rest

/-- The naive-mode pair computation of calibrate.py lines 90-92: for each
consecutive (min-probe, max-probe) name pair, the minimum of all collected
min values and the maximum of all collected max values.  A missing key is the
`KeyError` of `clean_merged_dict[...]`, an odd-length name list is the
`IndexError` of `added_node_output_names[i+1]`, and `min`/`max` of an empty
list is the Python `ValueError`; all are modelled as `none`. -/
def pairsOf (clean : List (String × List ℚ)) : List String → Option (List (ℚ × ℚ))
  | [] => some []
  | [_] => none
  | a :: b :: rest =>
    match dictGet clean a, dictGet clean b with
    | some va, some vb =>
      match va.min?, vb.max? with
      | some mn, some mx => (pairsOf clean rest).map (fun ps => (mn, mx) :: ps)
      | _, _ => none
    | _, _ => none

/-- The aggregation tail of `get_intermediate_outputs` (calibrate.py lines
84-97), starting from the truncated output-name list and the merged
dictionary: drop the first merged key (line 88), slice off the added probe
names (line 84), dispatch on the calibration mode (lines 89-94) and zip the
owner names with the aggregated pairs (line 96). -/
def gioAggregate (num_model_outputs : ℕ) (node_output_names : List String)
    (merged_dict : List (String × List ℚ)) (calib_mode : String) :
    Except String (List (String × ℚ × ℚ)) :=
  let added_node_output_names := node_output_names.drop num_model_outputs
  let node_names := node_names_of added_node_output_names
  match merged_dict.head? with
  | none => .error "IndexError: list index out of range"
  | some firstKV =>
    let clean_merged_dict := merged_dict.filter (fun kv => kv.1 != firstKV.1)
    if calib_mode = "naive" then
      match pairsOf clean_merged_dict added_node_output_names with
      | none => .error "KeyError"
      | some pairs => .ok (node_names.zip pairs)
    else
      .error "ValueError: Unknown value for calib_mode. Currently only naive mode is supported."

/-- `get_intermediate_outputs` (calibrate.py lines 57-97).  `outNames` is the
declared-output name list of the session (`session.get_outputs()`), `run` the
external inference call; the first component of the result is the number of
`session.run` invocations performed (line 75 runs inference on every sample
unconditionally, before the mode dispatch).  The second component is the
resulting per-node statistics dictionary, or the raised exception. -/
def get_intermediate_outputs {α : Type} (num_model_outputs : ℕ)
    (outNames : List String) (run : α → List ℚ) (inputs : List α)
    (calib_mode : String) : ℕ × Except String (List (String × ℚ × ℚ)) :=
  let intermediate_outputs := inputs.map run
  (inputs.length,
    match intermediate_outputs.head? with
    | none => .error "IndexError: list index out of range"
    | some firstOuts =>
      if firstOuts.length ≤ outNames.length then
        let node_output_names := outNames.take firstOuts.length
        gioAggregate num_model_outputs node_output_names
          ((intermediate_outputs.map (fun outs => node_output_names.zip outs)).foldl
            mergeSample [])
          calib_mode
      else .error "IndexError: list index out of range")

/-! Concrete instances used by witnesses and counterexamples. -/

/-- Concrete convolution node. -/
def convNode : NodeProto := ⟨"Conv", "conv1", ["x", "w"], ["conv1_out"], []⟩

/-- Concrete non-Clip, non-Relu successor node. -/
def identNode : NodeProto := ⟨"Identity", "id1", ["conv1_out"], ["id1_out"], []⟩

/-- Concrete Clip successor with bounds `[0, 6]`. -/
def clip06Node : NodeProto := ⟨"Clip", "clip1", ["conv1_out"], ["clip1_out"], [⟨0⟩, ⟨6⟩]⟩

/-- Concrete Clip successor with bounds `[5, 6]`. -/
def clip56Node : NodeProto := ⟨"Clip", "clip2", ["conv1_out"], ["clip2_out"], [⟨5⟩, ⟨6⟩]⟩

/-- Concrete Relu node (not quantization-eligible). -/
def reluNode : NodeProto := ⟨"Relu", "relu1", ["x"], ["relu1_out"], []⟩

/-- Model whose single (hence last) node is an eligible Conv. -/
def convModel : ModelProto := ⟨⟨[convNode], [⟨"conv1_out", TensorProtoFLOAT⟩]⟩⟩

/-- Thresholds entry for the output of `convNode`. -/
def convThresh : List (String × ℚ × ℚ) := [("conv1_out", (0, 1))]

/-- Model with a Conv followed by a Clip with bounds `[5, 6]`. -/
def convClipModel : ModelProto :=
  ⟨⟨[convNode, clip56Node], [⟨"clip2_out", TensorProtoFLOAT⟩]⟩⟩

/-- Model with no quantization-eligible node. -/
def reluModel : ModelProto := ⟨⟨[reluNode], [⟨"relu1_out", TensorProtoFLOAT⟩]⟩⟩

/-- Declared session outputs of the augmented `convModel`: the original
output followed by the two probe outputs. -/
def convOutNames : List String := ["conv1_out", "conv1_out_ReduceMin", "conv1_out_ReduceMax"]

/-- Session stub returning constant outputs `9, 2, 2` for every input. -/
def constRun : Unit → List ℚ := fun _ => [9, 2, 2]

/-- Session stub with two distinct calibration samples (indexed by `Bool`). -/
def twoSampleRun : Bool → List ℚ := fun b => if b then [0, 1, 5] else [0, 2, 3]

/-- The augmented form of `convModel`: the Conv node followed by its two
probe nodes, with the two probe outputs appended to the declared outputs. -/
def convModelAug : ModelProto :=
  ⟨⟨[convNode,
     ⟨"ReduceMin", "conv1_ReduceMin", ["conv1_out"], ["conv1_out_ReduceMin"], [⟨0⟩]⟩,
     ⟨"ReduceMax", "conv1_ReduceMax", ["conv1_out"], ["conv1_out_ReduceMax"], [⟨0⟩]⟩],
    [⟨"conv1_out", TensorProtoFLOAT⟩,
     ⟨"conv1_out_ReduceMin", TensorProtoFLOAT⟩,
     ⟨"conv1_out_ReduceMax", TensorProtoFLOAT⟩]⟩⟩

/-- Quantization eligibility of a node, as a Boolean predicate. -/
def isEligible (n : NodeProto) : Bool := n.op_type ∈ quantization_candidates

/-- The two probe nodes `augment_graph` appends for one eligible node. -/
def probeNodesFor (n : NodeProto) : List NodeProto :=
  [⟨"ReduceMin", n.name ++ "_ReduceMin", [n.output.headD ""],
    [n.output.headD "" ++ "_ReduceMin"], [⟨0⟩]⟩,
   ⟨"ReduceMax", n.name ++ "_ReduceMax", [n.output.headD ""],
    [n.output.headD "" ++ "_ReduceMax"], [⟨0⟩]⟩]

/-- The two probe output declarations `augment_graph` appends for one
eligible node: min probe immediately followed by max probe. -/
def probeOutsFor (n : NodeProto) : List ValueInfoProto :=
  [⟨n.output.headD "" ++ "_ReduceMin", TensorProtoFLOAT⟩,
   ⟨n.output.headD "" ++ "_ReduceMax", TensorProtoFLOAT⟩]

/-- The model value that `main` (calibrate.py lines 208-225) passes to
`calculate_quantization_params` at line 225.  `augment_graph` mutates the
loaded model object in place (lines 52-53) and `main` passes the same
`model` object to `calculate_quantization_params`, so the value received by
the derivation stage is the augmented model, not the originally loaded one. -/
def main_derivation_model (m : ModelProto) : Option ModelProto := augment_graph m

/-- Pointwise extension of per-output value-list columns by one sample. -/
def zipApp (Ls : List (List ℚ)) (vs : List ℚ) : List (List ℚ) :=
  List.zipWith (fun L v => L ++ [v]) Ls vs

/-- Relation between two optional value lists: both absent, or both present
and permutations of each other. -/
def opPerm : Option (List ℚ) → Option (List ℚ) → Prop
  | none, none => True
  | some l₁, some l₂ => l₁.Perm l₂
  | _, _ => False

instance : Std.Antisymm ((· : ℚ) ≤ ·) := ⟨fun h h' => le_antisymm h h'⟩

instance {ε α : Type} [DecidableEq ε] [DecidableEq α] : DecidableEq (Except ε α) :=
  fun x y =>
    match x, y with
    | .ok a, .ok b => if h : a = b then isTrue (by rw [h]) else isFalse (by simp [h])
    | .error e, .error f => if h : e = f then isTrue (by rw [h]) else isFalse (by simp [h])
    | .ok _, .error _ => isFalse (by simp)
    | .error _, .ok _ => isFalse (by simp)

theorem minq_eq_some_iff {l : List ℚ} {a : ℚ} :
    l.min? = some a ↔ a ∈ l ∧ ∀ b ∈ l, a ≤ b :=
  List.min?_eq_some_iff (fun a => le_refl a) (fun a b => min_choice a b)
    (fun _ _ _ => le_min_iff)

theorem maxq_eq_some_iff {l : List ℚ} {a : ℚ} :
    l.max? = some a ↔ a ∈ l ∧ ∀ b ∈ l, b ≤ a :=
  List.max?_eq_some_iff (fun a => le_refl a) (fun a b => max_choice a b)
    (fun _ _ _ => max_le_iff)

theorem minq_perm {l l' : List ℚ} (h : l.Perm l') : l.min? = l'.min? := by
  cases hm : l.min? with
  | none =>
    rw [List.min?_eq_none_iff] at hm
    subst hm
    rw [h.symm.eq_nil]
    rfl
  | some a =>
    rw [minq_eq_some_iff] at hm
    have : l'.min? = some a :=
      minq_eq_some_iff.mpr ⟨h.mem_iff.mp hm.1, fun b hb => hm.2 b (h.mem_iff.mpr hb)⟩
    rw [this]

theorem maxq_perm {l l' : List ℚ} (h : l.Perm l') : l.max? = l'.max? := by
  cases hm : l.max? with
  | none =>
    rw [List.max?_eq_none_iff] at hm
    subst hm
    rw [h.symm.eq_nil]
    rfl
  | some a =>
    rw [maxq_eq_some_iff] at hm
    have : l'.max? = some a :=
      maxq_eq_some_iff.mpr ⟨h.mem_iff.mp hm.1, fun b hb => hm.2 b (h.mem_iff.mpr hb)⟩
    rw [this]

theorem augmentStep_not_eligible {n : NodeProto}
    (h : n.op_type ∉ quantization_candidates) : augmentStep n = some ([], []) := by
  simp [augmentStep, h]

theorem augmentStep_eligible {n : NodeProto} (he : n.op_type ∈ quantization_candidates)
    (ho : n.output ≠ []) : augmentStep n = some (probeNodesFor n, probeOutsFor n) := by
  cases hn : n.output with
  | nil => exact absurd hn ho
  | cons o os => simp [augmentStep, he, hn, probeNodesFor, probeOutsFor]

theorem addedPieces_eq (nodes : List NodeProto)
    (h : ∀ n ∈ nodes, n.op_type ∈ quantization_candidates → n.output ≠ []) :
    addedPieces nodes = some
      ((nodes.filter isEligible).bind probeNodesFor,
       (nodes.filter isEligible).bind probeOutsFor) := by
  induction nodes with
  | nil => rfl
  | cons n rest ih =>
    have ih' := ih (fun x hx => h x (List.mem_cons_of_mem _ hx))
    by_cases he : n.op_type ∈ quantization_candidates
    · simp [addedPieces, augmentStep_eligible he (h n (List.mem_cons_self _ _) he), ih',
        isEligible, he]
    · simp [addedPieces, augmentStep_not_eligible he, ih', isEligible, he]

theorem probeOuts_bind_length (l : List NodeProto) :
    (l.bind probeOutsFor).length = 2 * l.length := by
  induction l with
  | nil => rfl
  | cons n rest ih =>
    simp only [List.cons_bind, List.length_append, ih, probeOutsFor, List.length_cons,
      List.length_nil]
    omega

theorem augment_graph_some_parts (m m' : ModelProto) (h : augment_graph m = some m') :
    ∃ p, addedPieces m.graph.node = some p ∧
      m' = ⟨⟨m.graph.node ++ p.1, m.graph.output ++ p.2⟩⟩ := by
  unfold augment_graph at h
  cases hap : addedPieces m.graph.node with
  | none => rw [hap] at h; exact absurd h (by simp)
  | some p =>
    rw [hap] at h
    exact ⟨p, rfl, by simpa using h.symm⟩

theorem addedPieces_no_eligible (nodes : List NodeProto)
    (h : ∀ n ∈ nodes, n.op_type ∉ quantization_candidates) :
    addedPieces nodes = some ([], []) := by
  induction nodes with
  | nil => rfl
  | cons n rest ih =>
    simp [addedPieces, augmentStep_not_eligible (h n (List.mem_cons_self _ _)),
      ih (fun x hx => h x (List.mem_cons_of_mem _ hx))]

/-- C2: for every graph whose eligible (Conv or MatMul) nodes each have at
least one output, `augment_graph` succeeds, the augmented output-declaration
count equals the original output count plus `2·E` where `E` is the number of
eligible nodes, and the appended declarations are, per eligible node in
node-list traversal order, that node's min-probe output immediately followed
by its max-probe output. -/
theorem augment_graph_probe_layout (m : ModelProto)
    (h : ∀ n ∈ m.graph.node, n.op_type ∈ quantization_candidates → n.output ≠ []) :
    ∃ m', augment_graph m = some m' ∧
      m'.graph.output.length = m.graph.output.length
        + 2 * (m.graph.node.filter isEligible).length ∧
      m'.graph.output
        = m.graph.output ++ (m.graph.node.filter isEligible).bind probeOutsFor := by
  have hap := addedPieces_eq m.graph.node h
  refine ⟨⟨⟨m.graph.node ++ (m.graph.node.filter isEligible).bind probeNodesFor,
           m.graph.output ++ (m.graph.node.filter isEligible).bind probeOutsFor⟩⟩,
    ?_, ?_, rfl⟩
  · simp [augment_graph, hap]
  · rw [List.length_append, probeOuts_bind_length]

/-- Witness for C2 at a concrete one-Conv graph. -/
theorem augment_graph_probe_layout_witness :
    (∀ n ∈ convModel.graph.node,
      n.op_type ∈ quantization_candidates → n.output ≠ []) ∧
    ∃ m', augment_graph convModel = some m' ∧
      m'.graph.output.length = convModel.graph.output.length
        + 2 * (convModel.graph.node.filter isEligible).length ∧
      m'.graph.output
        = convModel.graph.output
          ++ (convModel.graph.node.filter isEligible).bind probeOutsFor :=
  ⟨by decide, augment_graph_probe_layout convModel (by decide)⟩

/-- C8: `augment_graph` is append-only on the graph value: the original node
list and output list survive unchanged as initial segments of the result, and
a graph with no eligible node is returned unchanged, with no probes. -/
theorem augment_graph_append_only (m m' : ModelProto) (h : augment_graph m = some m') :
    m'.graph.node.take m.graph.node.length = m.graph.node ∧
    m'.graph.output.take m.graph.output.length = m.graph.output ∧
    ((∀ n ∈ m.graph.node, n.op_type ∉ quantization_candidates) → m' = m) := by
  obtain ⟨p, hp, rfl⟩ := augment_graph_some_parts m m' h
  refine ⟨List.take_left _ _, List.take_left _ _, fun hno => ?_⟩
  rw [addedPieces_no_eligible m.graph.node hno] at hp
  obtain rfl : p = ([], []) := by injection hp with hp'; exact hp'.symm
  simp

/-- Witness for C8 at a concrete probe-free graph. -/
theorem augment_graph_append_only_witness :
    augment_graph reluModel = some reluModel ∧
    (reluModel.graph.node.take reluModel.graph.node.length = reluModel.graph.node ∧
     reluModel.graph.output.take reluModel.graph.output.length = reluModel.graph.output ∧
     ((∀ n ∈ reluModel.graph.node, n.op_type ∉ quantization_candidates) →
       reluModel = reluModel)) :=
  ⟨by decide, augment_graph_append_only reluModel reluModel (by decide)⟩

/-- C9 counterexample: for the one-Conv model, the model value `main` hands
to `calculate_quantization_params` is not the original model but the
augmented one, and on it the derivation behaves differently than it would on
the original topology (success on the augmented list, positional IndexError
on the original list). -/
theorem main_derivation_not_original_cex :
    main_derivation_model convModel ≠ some convModel ∧
    (main_derivation_model convModel).map
      (fun am => calculate_quantization_params am 8 (some convThresh))
      = some (.ok [("conv1_out", (0, 1 / 255))]) ∧
    calculate_quantization_params convModel 8 (some convThresh)
      = .error "IndexError: list index out of range" := by
  refine ⟨by decide, ?_, by decide⟩
  have hm : main_derivation_model convModel = some convModelAug := by decide
  rw [hm, Option.map_some']
  congr 1
  simp [calculate_quantization_params, cqpLoop, lookupThresh, convModelAug, convThresh,
    calculate_scale_zeropoint, clipAdjust, reluAdjust, zeroClampMin, zeroClampMax,
    scaleOf, zeroPointOf, pyRound, npUint8, convNode]

/-- C9 (amended): the derivation stage of `main` receives the augmented
model (the source mutates the loaded model in place during augmentation),
and the range-adjustment successor it inspects at position `index + 1` of
that augmented node list coincides with the node at the next sequential
position of the original node list whenever the candidate is not the last
original node. -/
theorem main_derivation_uses_augmented (m m' : ModelProto)
    (h : augment_graph m = some m') (i : ℕ) (hi : i + 1 < m.graph.node.length) :
    main_derivation_model m = some m' ∧
    m'.graph.node.get? (i + 1) = m.graph.node.get? (i + 1) := by
  refine ⟨h, ?_⟩
  obtain ⟨p, _, rfl⟩ := augment_graph_some_parts m m' h
  exact List.get?_append hi

/-- Witness for C9 (amended) at a concrete two-node graph. -/
theorem main_derivation_uses_augmented_witness :
    (∃ m', augment_graph convClipModel = some m' ∧ 0 + 1 < convClipModel.graph.node.length ∧
      (main_derivation_model convClipModel = some m' ∧
       m'.graph.node.get? (0 + 1) = convClipModel.graph.node.get? (0 + 1))) := by
  refine ⟨⟨⟨convClipModel.graph.node ++ probeNodesFor convNode,
           convClipModel.graph.output ++ probeOutsFor convNode⟩⟩, ?_, by decide, ?_⟩
  · decide
  · exact main_derivation_uses_augmented convClipModel _ (by decide) 0 (by decide)

theorem cqpLoop_skip (all : List NodeProto) (t : List (String × ℚ × ℚ))
    (n : NodeProto) (rest : List NodeProto) (i : ℕ) (nm : String)
    (h1 : n.output.head? = some nm) (h2 : lookupThresh t nm = none) :
    cqpLoop all t (n :: rest) i = cqpLoop all t rest (i + 1) := by
  simp only [cqpLoop, h1, h2]

theorem cqpLoop_last_oob (all : List NodeProto) (t : List (String × ℚ × ℚ)) :
    ∀ (rest : List NodeProto) (i : ℕ) (lastN : NodeProto) (nm : String) (p : ℚ × ℚ),
      i + rest.length = all.length →
      rest.getLast? = some lastN →
      (∀ n ∈ rest.dropLast, ∃ nm', n.output.head? = some nm' ∧ lookupThresh t nm' = none) →
      lastN.output.head? = some nm →
      lookupThresh t nm = some p →
      cqpLoop all t rest i = .error "IndexError: list index out of range"
  | [], _, _, _, _, _, hlast, _, _, _ => by simp at hlast
  | [x], i, lastN, nm, p, hlen, hlast, hpre, hhd, hth => by
    obtain rfl : x = lastN := by simpa using hlast
    have hnone : all.get? (i + 1) = none := by
      rw [List.get?_eq_none]
      simp only [List.length_cons, List.length_nil] at hlen
      omega
    simp only [cqpLoop, hhd, hth, hnone]
  | x :: y :: rest', i, lastN, nm, p, hlen, hlast, hpre, hhd, hth => by
    obtain ⟨nmx, hx1, hx2⟩ := hpre x (by simp)
    have hlen' : (i + 1) + (y :: rest').length = all.length := by
      simp only [List.length_cons] at hlen ⊢
      omega
    have hdl : (x :: y :: rest').dropLast = x :: (y :: rest').dropLast := rfl
    have tail := cqpLoop_last_oob all t (y :: rest') (i + 1) lastN nm p
      hlen'
      (by simpa using hlast)
      (fun n hn => hpre n (by rw [hdl]; exact List.mem_cons_of_mem _ hn))
      hhd hth
    rw [cqpLoop_skip all t x (y :: rest') i nmx hx1 hx2, tail]

/-- C10: when the last node of the supplied graph occupies a position whose
output has a thresholds entry (and no earlier node matches the thresholds),
`calculate_quantization_params` hits the unchecked positional successor
access `model.graph.node[index+1]` past the end of the list, raising
IndexError instead of returning a parameter for that node. -/
theorem cqp_oob_on_last_candidate (m : ModelProto) (t : List (String × ℚ × ℚ))
    (pre : List NodeProto) (lastN : NodeProto) (nm : String) (p : ℚ × ℚ)
    (hnodes : m.graph.node = pre ++ [lastN])
    (hpre : ∀ n ∈ pre, ∃ nm', n.output.head? = some nm' ∧ lookupThresh t nm' = none)
    (hlast : lastN.output.head? = some nm)
    (hth : lookupThresh t nm = some p) :
    calculate_quantization_params m 8 (some t)
      = .error "IndexError: list index out of range" := by
  unfold calculate_quantization_params
  simp only [if_neg (by decide : ¬ (8 : ℕ) ≠ 8)]
  refine cqpLoop_last_oob m.graph.node t m.graph.node 0 lastN nm p (by omega) ?_ ?_ hlast hth
  · rw [hnodes]; exact List.getLast?_concat _
  · rw [hnodes, List.dropLast_concat]; exact hpre

/-- Witness for C10 at the concrete one-Conv model whose single node is last
and has a thresholds entry. -/
theorem cqp_oob_on_last_candidate_witness :
    convModel.graph.node = [] ++ [convNode] ∧
    calculate_quantization_params convModel 8 (some convThresh)
      = .error "IndexError: list index out of range" :=
  ⟨by decide, cqp_oob_on_last_candidate convModel convThresh [] convNode "conv1_out" (0, 1)
    (by decide) (by simp) (by decide) (by decide)⟩

theorem clipAdjust_of_clip {next_node : NodeProto} {a b : AttributeProto}
    {rest : List AttributeProto} (hop : next_node.op_type = "Clip")
    (hattr : next_node.attr = a :: b :: rest) (rmin rmax : ℚ) :
    clipAdjust next_node rmin rmax
      = some (if rmin < a.f then a.f else rmin, if rmax > b.f then b.f else rmax) := by
  simp [clipAdjust, hop, hattr]

theorem clipAdjust_not_clip {next_node : NodeProto} (hop : next_node.op_type ≠ "Clip")
    (rmin rmax : ℚ) : clipAdjust next_node rmin rmax = some (rmin, rmax) := by
  simp [clipAdjust, hop]

theorem csz_of_clipAdjust {node next_node : NodeProto} {rmin rmax r1 r2 : ℚ}
    (hca : clipAdjust next_node (zeroClampMin rmin) (zeroClampMax rmax) = some (r1, r2)) :
    calculate_scale_zeropoint node next_node rmin rmax
      = some (zeroPointOf (reluAdjust next_node r1) (scaleOf (reluAdjust next_node r1) r2),
              scaleOf (reluAdjust next_node r1) r2) := by
  rw [calculate_scale_zeropoint, hca]

theorem npUint8_range (z : ℤ) : 0 ≤ npUint8 z ∧ npUint8 z ≤ 255 := by
  unfold npUint8
  have h1 : 0 ≤ z % 256 := Int.emod_nonneg z (by norm_num)
  have h2 : z % 256 < 256 := Int.emod_lt_of_pos z (by norm_num)
  omega

theorem scaleOf_pos {rmin rmax : ℚ} (h1 : rmin ≤ 0) (h2 : 0 ≤ rmax) :
    0 < scaleOf rmin rmax := by
  unfold scaleOf
  split
  · next hne =>
    have hlt : rmin < rmax := lt_of_le_of_ne (h1.trans h2) hne
    have : 0 < rmax - rmin := sub_pos.mpr hlt
    positivity
  · norm_num

theorem reluAdjust_nonpos {next_node : NodeProto} {rmin : ℚ} (h : rmin ≤ 0) :
    reluAdjust next_node rmin ≤ 0 := by
  unfold reluAdjust
  split
  · split
    · exact le_refl 0
    · exact h
  · exact h

/-- C3 counterexample: with a Clip successor carrying constant bounds
`[5, 6]` and an observed range `[0, 1]`, `calculate_quantization_params`
emits scale `-4/255 < 0`, refuting strict positivity of the scale for
arbitrary Clip bounds. -/
theorem cqp_nonpositive_scale_cex :
    calculate_quantization_params convClipModel 8 (some convThresh)
      = .ok [("conv1_out", (255, -4 / 255))] ∧ ¬ (0 < (-4 / 255 : ℚ)) := by
  constructor
  · simp [calculate_quantization_params, cqpLoop, lookupThresh, convClipModel, convThresh,
      calculate_scale_zeropoint, clipAdjust, reluAdjust, zeroClampMin, zeroClampMax,
      scaleOf, zeroPointOf, pyRound, npUint8, convNode, clip56Node] <;> norm_num
  · norm_num

/-- C3 (amended): every emitted zero_point lies in [0, 255], for every
successor node and arbitrary Clip bounds (it is the np.uint8 conversion of a
value clamped into [0, 255]); the emitted scale is strictly positive
provided that, whenever the successor is a Clip node, its constant bounds
straddle zero (`clip_min ≤ 0 ≤ clip_max`).  With arbitrary Clip bounds the
scale can be negative, as the counterexample shows. -/
theorem csz_zero_point_range_and_scale_pos (node next_node : NodeProto)
    (rmin rmax : ℚ) (zp : ℤ) (s : ℚ)
    (h : calculate_scale_zeropoint node next_node rmin rmax = some (zp, s)) :
    0 ≤ zp ∧ zp ≤ 255 ∧
    ((next_node.op_type = "Clip" →
        ∃ a b rest, next_node.attr = a :: b :: rest ∧ a.f ≤ 0 ∧ 0 ≤ b.f) →
      0 < s) := by
  obtain ⟨r1, r2, hca, hzp, hs⟩ :
      ∃ r1 r2,
        clipAdjust next_node (zeroClampMin rmin) (zeroClampMax rmax) = some (r1, r2) ∧
        zeroPointOf (reluAdjust next_node r1) (scaleOf (reluAdjust next_node r1) r2) = zp ∧
        scaleOf (reluAdjust next_node r1) r2 = s := by
    unfold calculate_scale_zeropoint at h
    cases hca : clipAdjust next_node (zeroClampMin rmin) (zeroClampMax rmax) with
    | none => rw [hca] at h; exact absurd h (by simp)
    | some rr =>
      rw [hca] at h
      simp only [Option.some.injEq, Prod.mk.injEq] at h
      exact ⟨rr.1, rr.2, by simp [hca], h.1, h.2⟩
  subst hs
  subst hzp
  refine ⟨(npUint8_range _).1, (npUint8_range _).2, fun hclip => ?_⟩
  by_cases hop : next_node.op_type = "Clip"
  · obtain ⟨a, b, rest, hattr, ha, hb⟩ := hclip hop
    rw [clipAdjust_of_clip hop hattr] at hca
    simp only [Option.some.injEq, Prod.mk.injEq] at hca
    obtain ⟨hr1, hr2⟩ := hca
    have h1 : r1 ≤ 0 := by
      rw [← hr1]
      split
      · exact ha
      · exact min_le_right _ _
    have h2 : 0 ≤ r2 := by
      rw [← hr2]
      split
      · exact hb
      · exact le_max_right _ _
    exact scaleOf_pos (reluAdjust_nonpos h1) h2
  · rw [clipAdjust_not_clip hop] at hca
    simp only [Option.some.injEq, Prod.mk.injEq] at hca
    obtain ⟨hr1, hr2⟩ := hca
    exact scaleOf_pos (reluAdjust_nonpos (hr1 ▸ min_le_right _ _))
      (hr2 ▸ le_max_right _ _)

/-- Witness for C3 (amended) at a concrete run with a non-Clip successor. -/
theorem csz_zero_point_range_and_scale_pos_witness :
    calculate_scale_zeropoint convNode identNode (-1) 254 = some (1, 1) ∧
    (0 ≤ (1 : ℤ) ∧ (1 : ℤ) ≤ 255 ∧
      ((identNode.op_type = "Clip" →
          ∃ a b rest, identNode.attr = a :: b :: rest ∧ a.f ≤ 0 ∧ 0 ≤ b.f) →
        0 < (1 : ℚ))) := by
  have h : calculate_scale_zeropoint convNode identNode (-1) 254 = some (1, 1) := by
    simp [calculate_scale_zeropoint, clipAdjust, reluAdjust, zeroClampMin, zeroClampMax,
      scaleOf, zeroPointOf, pyRound, npUint8, convNode, identNode] <;> norm_num
  exact ⟨h, csz_zero_point_range_and_scale_pos convNode identNode (-1) 254 1 1 h⟩

/-- C4 counterexample: observed min = max = 2 with a successor that is
neither Clip nor Relu gives scale 2/255, not the degenerate fallback 1
claimed by the specification. -/
theorem csz_degenerate_range_cex :
    calculate_scale_zeropoint convNode identNode 2 2 = some (0, 2 / 255) ∧
    ((2 : ℚ) / 255) ≠ 1 := by
  constructor
  · simp [calculate_scale_zeropoint, clipAdjust, reluAdjust, zeroClampMin, zeroClampMax,
      scaleOf, zeroPointOf, pyRound, npUint8, convNode, identNode] <;> norm_num
  · norm_num

/-- C4 (amended): for observed min = max = 2.0 and a successor that is
neither Clip nor Relu, the zero-inclusion clamp first widens the range to
[0, 2], so the emitted parameters are scale = 2/255 and zero_point = 0 (no
division by zero occurs); the degenerate fallback scale = 1 fires only when
the clamped range is a single point, as for observed min = max = 0. -/
theorem csz_degenerate_range_amended :
    calculate_scale_zeropoint convNode identNode 2 2 = some (0, 2 / 255) ∧
    calculate_scale_zeropoint convNode identNode 0 0 = some (0, 1) := by
  constructor
  · simp [calculate_scale_zeropoint, clipAdjust, reluAdjust, zeroClampMin, zeroClampMax,
      scaleOf, zeroPointOf, pyRound, npUint8, convNode, identNode] <;> norm_num
  · simp [calculate_scale_zeropoint, clipAdjust, reluAdjust, zeroClampMin, zeroClampMax,
      scaleOf, zeroPointOf, pyRound, npUint8, convNode, identNode] <;> norm_num

theorem if_lt_eq_max (x y : ℚ) : (if x < y then y else x) = max x y := by
  split
  · next hxy => exact (max_eq_right (le_of_lt hxy)).symm
  · next hxy => exact (max_eq_left (le_of_not_lt hxy)).symm

theorem if_gt_eq_min (x y : ℚ) : (if x > y then y else x) = min x y := by
  split
  · next hxy => exact (min_eq_right (le_of_lt hxy)).symm
  · next hxy => exact (min_eq_left (le_of_not_lt hxy)).symm

/-- C7: for a bounded-clip successor with constant bounds `[a, b]`, the
range adjustment raises rmin to `a` exactly when `rmin < a` and lowers rmax
to `b` exactly when `rmax > b` (that is, it produces
`(max rmin a, min rmax b)`), never expanding the range; and the concrete
scenario of observed range `[-2, 10]` followed by a clip with bounds
`[0, 6]` yields the adjusted range `[0, 6]`, scale `6/255` and zero_point
`0`. -/
theorem clip_tightening (next_node : NodeProto) (a b : AttributeProto)
    (rest : List AttributeProto) (rmin rmax : ℚ)
    (hop : next_node.op_type = "Clip") (hattr : next_node.attr = a :: b :: rest) :
    clipAdjust next_node rmin rmax = some (max rmin a.f, min rmax b.f) ∧
    rmin ≤ max rmin a.f ∧ min rmax b.f ≤ rmax ∧
    calculate_scale_zeropoint convNode clip06Node (-2) 10 = some (0, 6 / 255) := by
  refine ⟨?_, le_max_left _ _, min_le_left _ _, ?_⟩
  · rw [clipAdjust_of_clip hop hattr, if_lt_eq_max, if_gt_eq_min]
  · simp [calculate_scale_zeropoint, clipAdjust, reluAdjust, zeroClampMin, zeroClampMax,
      scaleOf, zeroPointOf, pyRound, npUint8, convNode, clip06Node] <;> norm_num

/-- Witness for C7 at the concrete clip node with bounds `[0, 6]`. -/
theorem clip_tightening_witness :
    clip06Node.op_type = "Clip" ∧ clip06Node.attr = [⟨0⟩, ⟨6⟩] ∧
    (clipAdjust clip06Node (-2) 10
        = some (max (-2) (AttributeProto.mk 0).f, min 10 (AttributeProto.mk 6).f) ∧
     (-2 : ℚ) ≤ max (-2) (AttributeProto.mk 0).f ∧
     min 10 (AttributeProto.mk 6).f ≤ (10 : ℚ) ∧
     calculate_scale_zeropoint convNode clip06Node (-2) 10 = some (0, 6 / 255)) :=
  ⟨rfl, rfl, clip_tightening clip06Node ⟨0⟩ ⟨6⟩ [] (-2) 10 rfl rfl⟩

/-- C5 counterexample: a single calibration sample whose probed node has all
values equal to 2 produces the statistics entry `(2, 2)`, whose minimum is
not ≤ 0: zero-inclusion does not hold for the aggregated map itself. -/
theorem gio_stats_not_zero_inclusive_cex :
    (get_intermediate_outputs 1 convOutNames constRun [()] "naive").2
      = .ok [("conv1_out", (2, 2))] ∧ ¬ ((2 : ℚ) ≤ 0) := by
  constructor
  · decide
  · norm_num

/-- C5 (amended): zero-inclusion is enforced at the start of parameter
derivation, not by aggregation: `calculate_scale_zeropoint` clamps the
incoming range so that the range it derives parameters from satisfies
min ≤ 0 ≤ max, and pre-clamping its inputs does not change its result; the
aggregated statistics entries themselves can have min > 0 (see the
counterexample). -/
theorem zero_inclusion_enforced_in_derivation (node next_node : NodeProto)
    (rmin rmax : ℚ) :
    zeroClampMin rmin ≤ 0 ∧ 0 ≤ zeroClampMax rmax ∧
    calculate_scale_zeropoint node next_node rmin rmax
      = calculate_scale_zeropoint node next_node (zeroClampMin rmin) (zeroClampMax rmax) := by
  refine ⟨min_le_right _ _, le_max_right _ _, ?_⟩
  unfold calculate_scale_zeropoint
  rw [show zeroClampMin (zeroClampMin rmin) = zeroClampMin rmin by
        simp [zeroClampMin, min_assoc],
      show zeroClampMax (zeroClampMax rmax) = zeroClampMax rmax by
        simp [zeroClampMax, max_assoc]]

/-- C1 counterexample: with a one-sample dataset and the unsupported mode
"percentile", `get_intermediate_outputs` raises the ValueError only after
having performed one inference call, so inference side effects are
observable before the configuration error. -/
theorem gio_mode_error_after_inference_cex :
    get_intermediate_outputs 1 convOutNames constRun [()] "percentile"
      = (1, .error
        "ValueError: Unknown value for calib_mode. Currently only naive mode is supported.") ∧
    (1 : ℕ) ≠ 0 := by
  exact ⟨by decide, by decide⟩

/-- C1 (amended): for every calibration run configured with an
aggregation-mode value other than "naive", `get_intermediate_outputs` never
returns statistics — every execution path ends in a raised error — but only
after running inference on every calibration sample: the number of
`session.run` invocations equals the dataset size. -/
theorem gio_mode_error_after_all_inference {α : Type} (num_model_outputs : ℕ)
    (outNames : List String) (run : α → List ℚ) (inputs : List α)
    (mode : String) (hmode : mode ≠ "naive") :
    (get_intermediate_outputs num_model_outputs outNames run inputs mode).1
      = inputs.length ∧
    ∃ e, (get_intermediate_outputs num_model_outputs outNames run inputs mode).2
      = Except.error e := by
  constructor
  · rfl
  · simp only [get_intermediate_outputs]
    split
    · exact ⟨_, rfl⟩
    · split
      · simp only [gioAggregate]
        split
        · exact ⟨_, rfl⟩
        · rw [if_neg hmode]
          exact ⟨_, rfl⟩
      · exact ⟨_, rfl⟩

/-- Witness for C1 (amended) at a concrete one-sample run. -/
theorem gio_mode_error_after_all_inference_witness :
    ("percentile" : String) ≠ "naive" ∧
    ((get_intermediate_outputs 1 convOutNames constRun [()] "percentile").1
        = [()].length ∧
     ∃ e, (get_intermediate_outputs 1 convOutNames constRun [()] "percentile").2
        = Except.error e) :=
  ⟨by decide, gio_mode_error_after_all_inference 1 convOutNames constRun [()]
    "percentile" (by decide)⟩

theorem mapIdOn {β : Type} (l : List β) (f : β → β) (h : ∀ x ∈ l, f x = x) :
    l.map f = l := by
  induction l with
  | nil => rfl
  | cons a rest ih =>
    simp only [List.map_cons, h a (List.mem_cons_self _ _),
      ih (fun x hx => h x (List.mem_cons_of_mem _ hx))]

theorem dictAppend_fresh {d : List (String × List ℚ)} {k : String} (v : ℚ)
    (h : k ∉ d.map Prod.fst) : dictAppend d k v = d ++ [(k, [v])] := by
  have hany : d.any (fun kv => kv.1 == k) = false := by
    rw [List.any_eq_false]
    intro kv hkv
    simp only [beq_iff_eq]
    intro he
    exact h (he ▸ List.mem_map_of_mem Prod.fst hkv)
  simp [dictAppend, hany]

theorem dictAppend_present {pre post : List (String × List ℚ)} {k : String}
    {L : List ℚ} (v : ℚ) (hpre : k ∉ pre.map Prod.fst) (hpost : k ∉ post.map Prod.fst) :
    dictAppend (pre ++ (k, L) :: post) k v = pre ++ (k, L ++ [v]) :: post := by
  have hany : (pre ++ (k, L) :: post).any (fun kv => kv.1 == k) = true := by
    rw [List.any_eq_true]
    exact ⟨(k, L), by simp⟩
  simp only [dictAppend, hany, if_pos, List.map_append, List.map_cons]
  congr 1
  · exact mapIdOn pre _ (fun kv hkv => by
      have : kv.1 ≠ k := fun he => hpre (he ▸ List.mem_map_of_mem Prod.fst hkv)
      simp [this])
  · congr 1
    · simp
    · exact mapIdOn post _ (fun kv hkv => by
        have : kv.1 ≠ k := fun he => hpost (he ▸ List.mem_map_of_mem Prod.fst hkv)
        simp [this])

theorem mergeSample_fresh :
    ∀ (kvs : List (String × ℚ)) (acc : List (String × List ℚ)),
      (kvs.map Prod.fst).Nodup →
      (∀ kv ∈ kvs, kv.1 ∉ acc.map Prod.fst) →
      mergeSample acc kvs = acc ++ kvs.map (fun kv => (kv.1, [kv.2]))
  | [], acc, _, _ => by simp [mergeSample]
  | (k, v) :: rest, acc, hnd, hdisj => by
    have hk : k ∉ acc.map Prod.fst := hdisj (k, v) (List.mem_cons_self _ _)
    have step : mergeSample acc ((k, v) :: rest)
        = mergeSample (acc ++ [(k, [v])]) rest := by
      simp only [mergeSample, List.foldl_cons, dictAppend_fresh v hk]
    rw [step, mergeSample_fresh rest (acc ++ [(k, [v])])
      (by simpa using hnd.of_cons)
      (fun kv hkv => by
        simp only [List.map_append, List.mem_append, List.map_cons] at *
        push_neg
        refine ⟨fun hin => (hdisj kv (List.mem_cons_of_mem _ hkv)) hin, ?_⟩
        simp only [List.map_nil, List.mem_singleton]
        intro he
        have hk1 : kv.1 = k := by simpa using he
        have : kv.1 ∈ rest.map Prod.fst := List.mem_map_of_mem Prod.fst hkv
        rw [List.nodup_cons] at hnd
        exact hnd.1 (hk1 ▸ this))]
    simp

theorem zipApp_cons (L : List ℚ) (Ls : List (List ℚ)) (v : ℚ) (vs : List ℚ) :
    zipApp (L :: Ls) (v :: vs) = (L ++ [v]) :: zipApp Ls vs := rfl

theorem zipApp_length {Ls : List (List ℚ)} {vs : List ℚ} {n : ℕ}
    (h1 : Ls.length = n) (h2 : vs.length = n) : (zipApp Ls vs).length = n := by
  simp [zipApp, List.length_zipWith, h1, h2]

theorem mergeSample_zip_full :
    ∀ (names : List String) (pre : List (String × List ℚ)) (Ls : List (List ℚ))
      (vs : List ℚ),
      names.Nodup → Ls.length = names.length → vs.length = names.length →
      (∀ nm ∈ names, nm ∉ pre.map Prod.fst) →
      mergeSample (pre ++ names.zip Ls) (names.zip vs)
        = pre ++ names.zip (zipApp Ls vs)
  | [], pre, Ls, vs, _, _, _, _ => by simp [mergeSample, zipApp]
  | n :: names', pre, [], vs, _, hLs, _, _ => by simp at hLs
  | n :: names', pre, L :: Ls', [], _, _, hvs, _ => by simp at hvs
  | n :: names', pre, L :: Ls', v :: vs', hnd, hLs, hvs, hdisj => by
    have hnpre : n ∉ pre.map Prod.fst := hdisj n (List.mem_cons_self _ _)
    have hnnames : n ∉ names' := (List.nodup_cons.mp hnd).1
    have hLs' : Ls'.length = names'.length := by simpa using hLs
    have hvs' : vs'.length = names'.length := by simpa using hvs
    have hnzip : n ∉ (names'.zip Ls').map Prod.fst := by
      rw [List.map_fst_zip names' Ls' (le_of_eq hLs'.symm)]
      exact hnnames
    have step1 : mergeSample (pre ++ (n, L) :: names'.zip Ls') ((n, v) :: names'.zip vs')
        = mergeSample (pre ++ (n, L ++ [v]) :: names'.zip Ls') (names'.zip vs') := by
      simp only [mergeSample, List.foldl_cons, dictAppend_present v hnpre hnzip]
    have reassoc : pre ++ (n, L ++ [v]) :: names'.zip Ls'
        = (pre ++ [(n, L ++ [v])]) ++ names'.zip Ls' := by simp
    have hdisj' : ∀ nm ∈ names', nm ∉ (pre ++ [(n, L ++ [v])]).map Prod.fst := by
      intro nm hnm
      simp only [List.map_append, List.mem_append, List.map_cons, List.map_nil,
        List.mem_singleton]
      push_neg
      refine ⟨fun hin => (hdisj nm (List.mem_cons_of_mem _ hnm)) hin, ?_⟩
      intro he
      exact hnnames (he ▸ hnm)
    calc mergeSample (pre ++ (n :: names').zip (L :: Ls')) ((n :: names').zip (v :: vs'))
        = mergeSample ((pre ++ [(n, L ++ [v])]) ++ names'.zip Ls') (names'.zip vs') := by
          rw [List.zip_cons_cons, List.zip_cons_cons, step1, reassoc]
      _ = (pre ++ [(n, L ++ [v])]) ++ names'.zip (zipApp Ls' vs') :=
          mergeSample_zip_full names' (pre ++ [(n, L ++ [v])]) Ls' vs'
            (List.nodup_cons.mp hnd).2 hLs' hvs' hdisj'
      _ = pre ++ (n :: names').zip (zipApp (L :: Ls') (v :: vs')) := by
          rw [zipApp_cons, List.zip_cons_cons]
          simp

theorem mergeSample_first {names : List String} {vs : List ℚ}
    (hnd : names.Nodup) (hvs : vs.length = names.length) :
    mergeSample [] (names.zip vs) = names.zip (vs.map (fun v => [v])) := by
  have hkeys : ((names.zip vs).map Prod.fst).Nodup := by
    rw [List.map_fst_zip names vs (le_of_eq hvs.symm)]
    exact hnd
  rw [mergeSample_fresh (names.zip vs) [] hkeys (by simp), List.nil_append]
  rw [List.zip_map_right]
  rfl

theorem foldl_mergeSample_zip {α : Type} (run : α → List ℚ) (names : List String) :
    ∀ (us : List α) (Ls : List (List ℚ)),
      names.Nodup → Ls.length = names.length →
      (∀ u ∈ us, (run u).length = names.length) →
      us.foldl (fun acc u => mergeSample acc (names.zip (run u))) (names.zip Ls)
        = names.zip (us.foldl (fun Ls u => zipApp Ls (run u)) Ls)
  | [], Ls, _, _, _ => rfl
  | u :: us', Ls, hnd, hLs, hlen => by
    have h1 : (run u).length = names.length := hlen u (List.mem_cons_self _ _)
    have step : mergeSample (names.zip Ls) (names.zip (run u))
        = names.zip (zipApp Ls (run u)) := by
      have := mergeSample_zip_full names [] Ls (run u) hnd hLs h1 (by simp)
      simpa using this
    simp only [List.foldl_cons, step]
    exact foldl_mergeSample_zip run names us' (zipApp Ls (run u)) hnd
      (zipApp_length hLs h1) (fun w hw => hlen w (List.mem_cons_of_mem _ hw))

theorem foldl_zipApp_length {α : Type} (run : α → List ℚ) {n : ℕ} :
    ∀ (us : List α) (Ls : List (List ℚ)),
      Ls.length = n → (∀ u ∈ us, (run u).length = n) →
      (us.foldl (fun Ls u => zipApp Ls (run u)) Ls).length = n
  | [], Ls, hLs, _ => hLs
  | u :: us', Ls, hLs, hlen => by
    simp only [List.foldl_cons]
    exact foldl_zipApp_length run us' (zipApp Ls (run u))
      (zipApp_length hLs (hlen u (List.mem_cons_self _ _)))
      (fun w hw => hlen w (List.mem_cons_of_mem _ hw))

theorem zipApp_getD :
    ∀ {Ls : List (List ℚ)} {vs : List ℚ} {j : ℕ},
      vs.length = Ls.length → j < Ls.length →
      (zipApp Ls vs).getD j [] = Ls.getD j [] ++ [vs.getD j 0]
  | [], vs, j, _, hj => by simp at hj
  | L :: Ls', [], j, hvs, _ => by simp at hvs
  | L :: Ls', v :: vs', 0, _, _ => rfl
  | L :: Ls', v :: vs', j + 1, hvs, hj => by
    simp only [zipApp_cons, List.getD_cons_succ]
    exact zipApp_getD (by simpa using hvs) (by simpa using hj)

theorem foldl_zipApp_getD {α : Type} (run : α → List ℚ) {n j : ℕ} (hj : j < n) :
    ∀ (us : List α) (Ls : List (List ℚ)),
      Ls.length = n → (∀ u ∈ us, (run u).length = n) →
      (us.foldl (fun Ls u => zipApp Ls (run u)) Ls).getD j []
        = Ls.getD j [] ++ us.map (fun u => (run u).getD j 0)
  | [], Ls, _, _ => by simp
  | u :: us', Ls, hLs, hlen => by
    have h1 : (run u).length = n := hlen u (List.mem_cons_self _ _)
    simp only [List.foldl_cons, List.map_cons]
    rw [foldl_zipApp_getD run hj us' (zipApp Ls (run u)) (zipApp_length hLs h1)
      (fun w hw => hlen w (List.mem_cons_of_mem _ hw))]
    rw [zipApp_getD (by rw [hLs, h1]) (by rw [hLs]; exact hj)]
    simp

theorem map_singleton_getD {l : List ℚ} {j : ℕ} (hj : j < l.length) :
    (l.map (fun v => [v])).getD j [] = [l.getD j 0] := by
  induction l generalizing j with
  | nil => simp at hj
  | cons a rest ih =>
    cases j with
    | zero => rfl
    | succ j =>
      simp only [List.map_cons, List.getD_cons_succ]
      exact ih (by simpa using hj)

theorem dictGet_zip_opPerm :
    ∀ (names : List String) (Ls Ls' : List (List ℚ)),
      names.Nodup → Ls.length = names.length → Ls'.length = names.length →
      (∀ j, j < names.length → (Ls.getD j []).Perm (Ls'.getD j [])) →
      ∀ nm, opPerm (dictGet (names.zip Ls) nm) (dictGet (names.zip Ls') nm)
  | [], _, _, _, _, _, _, nm => by simp [dictGet, opPerm]
  | n :: names', [], _, _, hLs, _, _, nm => by simp at hLs
  | n :: names', L :: Ls₂, [], _, _, hLs', _, nm => by simp at hLs'
  | n :: names', L :: Ls₂, L' :: Ls₂', hnd, hLs, hLs', hcols, nm => by
    by_cases he : n = nm
    · have h0 := hcols 0 (by simp)
      simp only [List.getD_cons_zero] at h0
      simp [dictGet, List.zip_cons_cons, List.find?_cons, he, opPerm, h0]
    · have hne : (n == nm) = false := by simp [he]
      have tail := dictGet_zip_opPerm names' Ls₂ Ls₂'
        (List.nodup_cons.mp hnd).2 (by simpa using hLs) (by simpa using hLs')
        (fun j hj => by
          have := hcols (j + 1) (by simpa using Nat.succ_lt_succ hj)
          simpa using this)
        nm
      simpa [dictGet, List.zip_cons_cons, List.find?_cons, hne] using tail

theorem filter_zip_ne_first {names' : List String} {Ls : List (List ℚ)}
    (n₀ : String) (hn₀ : n₀ ∉ names') (hLs : Ls.length = names'.length) :
    (names'.zip Ls).filter (fun kv => kv.1 != n₀) = names'.zip Ls := by
  rw [List.filter_eq_self]
  intro kv hkv
  have h1 : kv.1 ∈ names' := by
    have := List.of_mem_zip hkv
    exact this.1
  simp only [bne_iff_ne, ne_eq]
  intro he
  exact hn₀ (he ▸ h1)

theorem pairsOf_congr {d₁ d₂ : List (String × List ℚ)}
    (h : ∀ nm, opPerm (dictGet d₁ nm) (dictGet d₂ nm)) :
    ∀ added : List String, pairsOf d₁ added = pairsOf d₂ added
  | [] => rfl
  | [a] => rfl
  | a :: b :: rest => by
    have ha := h a
    have hb := h b
    cases h1 : dictGet d₁ a with
    | none =>
      cases h1' : dictGet d₂ a with
      | none => simp [pairsOf, h1, h1']
      | some va' => rw [h1, h1'] at ha; simp [opPerm] at ha
    | some va =>
      cases h1' : dictGet d₂ a with
      | none => rw [h1, h1'] at ha; simp [opPerm] at ha
      | some va' =>
        rw [h1, h1'] at ha
        simp only [opPerm] at ha
        cases h2 : dictGet d₁ b with
        | none =>
          cases h2' : dictGet d₂ b with
          | none => simp [pairsOf, h1, h1', h2, h2']
          | some vb' => rw [h2, h2'] at hb; simp [opPerm] at hb
        | some vb =>
          cases h2' : dictGet d₂ b with
          | none => rw [h2, h2'] at hb; simp [opPerm] at hb
          | some vb' =>
            rw [h2, h2'] at hb
            simp only [opPerm] at hb
            have hmin : va.min? = va'.min? := minq_perm ha
            have hmax : vb.max? = vb'.max? := maxq_perm hb
            simp only [pairsOf, h1, h1', h2, h2', hmin, hmax,
              pairsOf_congr h rest]

theorem gioAggregate_congr (nmo : ℕ) (mode : String) :
    ∀ (names : List String) (Ls Ls' : List (List ℚ)),
      names.Nodup → Ls.length = names.length → Ls'.length = names.length →
      (∀ j, j < names.length → (Ls.getD j []).Perm (Ls'.getD j [])) →
      gioAggregate nmo names (names.zip Ls) mode
        = gioAggregate nmo names (names.zip Ls') mode
  | [], Ls, Ls', _, _, _, _ => rfl
  | n₀ :: names', [], _, _, hLs, _, _ => by simp at hLs
  | n₀ :: names', c₀ :: Ls₂, [], _, _, hLs', _ => by simp at hLs'
  | n₀ :: names', c₀ :: Ls₂, c₀' :: Ls₂', hnd, hLs, hLs', hcols => by
    have hn₀ : n₀ ∉ names' := (List.nodup_cons.mp hnd).1
    have hnd' : names'.Nodup := (List.nodup_cons.mp hnd).2
    have hL2 : Ls₂.length = names'.length := by simpa using hLs
    have hL2' : Ls₂'.length = names'.length := by simpa using hLs'
    have hclean : ∀ (c : List ℚ) (Ls : List (List ℚ)), Ls.length = names'.length →
        ((n₀, c) :: names'.zip Ls).filter (fun kv => kv.1 != n₀) = names'.zip Ls := by
      intro c Ls hLen
      rw [List.filter_cons]
      simp only [bne_self_eq_false, Bool.false_eq_true, if_neg, if_false]
      exact filter_zip_ne_first n₀ hn₀ hLen
    have hrel : ∀ nm, opPerm (dictGet (names'.zip Ls₂) nm) (dictGet (names'.zip Ls₂') nm) :=
      dictGet_zip_opPerm names' Ls₂ Ls₂' hnd' hL2 hL2'
        (fun j hj => by
          have := hcols (j + 1) (by simpa using Nat.succ_lt_succ hj)
          simpa using this)
    have hpairs := pairsOf_congr hrel ((n₀ :: names').drop nmo)
    simp only [gioAggregate, List.zip_cons_cons, List.head?_cons]
    rw [hclean c₀ Ls₂ hL2, hclean c₀' Ls₂' hL2']
    by_cases hm : mode = "naive"
    · rw [if_pos hm, if_pos hm, hpairs]
    · rw [if_neg hm, if_neg hm]

theorem merged_of_inputs {α : Type} (run : α → List ℚ) (names : List String)
    (x : α) (xs : List α) (hnd : names.Nodup)
    (hlen : ∀ u ∈ x :: xs, (run u).length = names.length) :
    (((x :: xs).map run).map (fun outs => names.zip outs)).foldl mergeSample []
      = names.zip (xs.foldl (fun Ls u => zipApp Ls (run u))
          ((run x).map (fun v => [v]))) := by
  rw [List.map_map, List.foldl_map]
  simp only [Function.comp, List.foldl_cons]
  rw [mergeSample_first hnd (hlen x (List.mem_cons_self _ _))]
  exact foldl_mergeSample_zip run names xs _ hnd
    (by rw [List.length_map]; exact hlen x (List.mem_cons_self _ _))
    (fun u hu => hlen u (List.mem_cons_of_mem _ hu))

theorem cols_of_inputs {α : Type} (run : α → List ℚ) {n j : ℕ} (hj : j < n)
    (x : α) (xs : List α) (hlen : ∀ u ∈ x :: xs, (run u).length = n) :
    (xs.foldl (fun Ls u => zipApp Ls (run u)) ((run x).map (fun v => [v]))).getD j []
      = (x :: xs).map (fun u => (run u).getD j 0) := by
  rw [foldl_zipApp_getD run hj xs _
    (by rw [List.length_map]; exact hlen x (List.mem_cons_self _ _))
    (fun u hu => hlen u (List.mem_cons_of_mem _ hu))]
  rw [map_singleton_getD (by rw [hlen x (List.mem_cons_self _ _)]; exact hj)]
  simp

/-- C6: aggregation is order-independent: for every nonempty calibration
dataset and every permutation of it, `get_intermediate_outputs` produces an
identical result (in particular an identical PerNodeStatistics map), because
the per-node fold takes the minimum of all collected min-probe values and
the maximum of all collected max-probe values.  The hypotheses state the
execution-collaborator contract: the session reports distinct declared
output names and returns one value per declared output for every sample. -/
theorem gio_perm_invariant {α : Type} (num_model_outputs : ℕ) (outNames : List String)
    (run : α → List ℚ) (inputs inputs' : List α) (calib_mode : String)
    (hp : inputs.Perm inputs') (hne : inputs ≠ [])
    (hnodup : outNames.Nodup)
    (hlen : ∀ x ∈ inputs, (run x).length = outNames.length) :
    get_intermediate_outputs num_model_outputs outNames run inputs calib_mode
      = get_intermediate_outputs num_model_outputs outNames run inputs' calib_mode := by
  obtain ⟨x, xs, rfl⟩ : ∃ x xs, inputs = x :: xs := by
    cases inputs with
    | nil => exact absurd rfl hne
    | cons x xs => exact ⟨x, xs, rfl⟩
  obtain ⟨y, ys, rfl⟩ : ∃ y ys, inputs' = y :: ys := by
    cases inputs' with
    | nil => exact absurd hp.length_eq (by simp)
    | cons y ys => exact ⟨y, ys, rfl⟩
  have hlen' : ∀ u ∈ y :: ys, (run u).length = outNames.length :=
    fun u hu => hlen u (hp.mem_iff.mpr hu)
  have hx : (run x).length = outNames.length := hlen x (List.mem_cons_self _ _)
  have hy : (run y).length = outNames.length := hlen' y (List.mem_cons_self _ _)
  have hmerged₁ := merged_of_inputs run outNames x xs hnodup hlen
  have hmerged₂ := merged_of_inputs run outNames y ys hnodup hlen'
  have hC₁ : ((run x).map (fun v => [v])).length = outNames.length := by
    rw [List.length_map]; exact hx
  have hC₂ : ((run y).map (fun v => [v])).length = outNames.length := by
    rw [List.length_map]; exact hy
  have hcongr := gioAggregate_congr num_model_outputs calib_mode outNames
    (xs.foldl (fun Ls u => zipApp Ls (run u)) ((run x).map (fun v => [v])))
    (ys.foldl (fun Ls u => zipApp Ls (run u)) ((run y).map (fun v => [v])))
    hnodup
    (foldl_zipApp_length run xs _ hC₁ (fun u hu => hlen u (List.mem_cons_of_mem _ hu)))
    (foldl_zipApp_length run ys _ hC₂ (fun u hu => hlen' u (List.mem_cons_of_mem _ hu)))
    (fun j hj => by
      rw [cols_of_inputs run hj x xs hlen, cols_of_inputs run hj y ys hlen']
      exact hp.map (fun u => (run u).getD j 0))
  simp only [get_intermediate_outputs, List.map_cons, List.head?_cons]
  refine Prod.ext (by simpa using hp.length_eq) ?_
  simp only
  rw [if_pos (le_of_eq hx), if_pos (le_of_eq hy), hx, hy, List.take_length]
  simp only [List.map_cons] at hmerged₁ hmerged₂
  rw [hmerged₁, hmerged₂]
  exact hcongr

/-- Witness for C6 at a concrete two-sample dataset and its swap. -/
theorem gio_perm_invariant_witness :
    ([true, false] : List Bool).Perm [false, true] ∧
    ([true, false] : List Bool) ≠ [] ∧
    convOutNames.Nodup ∧
    (∀ x ∈ [true, false], (twoSampleRun x).length = convOutNames.length) ∧
    get_intermediate_outputs 1 convOutNames twoSampleRun [true, false] "naive"
      = get_intermediate_outputs 1 convOutNames twoSampleRun [false, true] "naive" :=
  ⟨List.Perm.swap false true [], by decide, by decide, by decide,
   gio_perm_invariant 1 convOutNames twoSampleRun [true, false] [false, true] "naive"
     (List.Perm.swap false true []) (by decide) (by decide) (by decide)⟩
